import Mathlib

/-!
Verification of the custom atomically-refcounted shared-ownership handle
(the Ark type and its ArkVault storage cell, src/src/main.rs).

The embedding is shallow and sequential-per-cell: since every counter
update in the source is a single atomic read-modify-write on one
AtomicUsize, any interleaving of operations across threads is some
serialization of those atomic steps, so operations are modelled as
functions on the cell state.  Each operation additionally returns the
list of atomic events it performs, in program order, recording the
memory ordering of every counter access and fence and the reclamation
of the cell, so that claims about orderings and fences are statable.
The counter is an AtomicUsize on a 64-bit target: its updates wrap
modulo 2^64, which the model reproduces exactly.
-/

namespace CustomArc

/-- Modulus of usize arithmetic on the 64-bit target: fetch_add and
fetch_sub on an AtomicUsize wrap modulo 2^64. -/
def USIZE : Nat := 2 ^ 64

/-- Memory orderings used by the source (std::sync::atomic::Ordering). -/
inductive MemOrdering where
  | Relaxed
  | Acquire
  | Release
deriving DecidableEq

/-- Observable events of one operation on a cell, in program order:
atomic counter accesses (with their ordering and the counter value they
observe), fences, and the reclamation of the vault. -/
inductive AtomicEvent where
  | load (ord : MemOrdering) (observed : Nat)
  | fetchAdd (arg : Nat) (ord : MemOrdering) (old : Nat)
  | fetchSub (arg : Nat) (ord : MemOrdering) (old : Nat)
  | fence (ord : MemOrdering)
  | freeVault
deriving DecidableEq

/-- Whether an event modifies the cell (a counter update or the
reclamation); loads and fences do not. -/
def AtomicEvent.isWrite : AtomicEvent → Bool
  | .fetchAdd _ _ _ => true
  | .fetchSub _ _ _ => true
  | .freeVault => true
  | _ => false

/-- The storage cell: struct ArkVault (rc: AtomicUsize, value: T). -/
structure ArkVault (T : Type) where
  rc : Nat
  value : T
deriving DecidableEq

variable {T : Type}

/-- ArkVault::new: rc initialized to 1, stores the value. -/
def ArkVault.new (value : T) : ArkVault T :=
  { rc := 1, value := value }

/-- ArkVault::value_ref: returns the stored value. -/
def ArkVault.value_ref (v : ArkVault T) : T :=
  v.value

/-- Ark::get_mut on the handle's cell: loads rc with Relaxed ordering;
if it equals 1, executes an Acquire fence and returns a mutable
reference to the value (modelled by the value it refers to), else
returns none.  The cell is returned unchanged alongside. -/
def Ark.get_mut (v : ArkVault T) : Option T × ArkVault T × List AtomicEvent :=
  if v.rc = 1 then
    (some v.value, v, [.load .Relaxed v.rc, .fence .Acquire])
  else
    (none, v, [.load .Relaxed v.rc])

/-- Clone for Ark, cell-level effect: rc.fetch_add(1, Relaxed); the new
handle aliases the same cell, so the resulting cell carries the same
value with the counter incremented (wrapping as usize does). -/
def Ark.clone (v : ArkVault T) : ArkVault T × List AtomicEvent :=
  ({ rc := (v.rc + 1) % USIZE, value := v.value },
   [.fetchAdd 1 .Relaxed v.rc])

/-- Drop for Ark, cell-level effect: old_rc := rc.fetch_sub(1, Release);
if old_rc == 1, an Acquire fence is executed and the vault is freed
(result none); otherwise the cell survives with the decremented counter
and the value untouched. -/
def Ark.drop (v : ArkVault T) : Option (ArkVault T) × List AtomicEvent :=
  let old_rc := v.rc
  if old_rc = 1 then
    (none, [.fetchSub 1 .Release old_rc, .fence .Acquire, .freeVault])
  else
    (some { rc := (v.rc + (USIZE - 1)) % USIZE, value := v.value },
     [.fetchSub 1 .Release old_rc])

/-- Deref for Ark: self.vault().value_ref(). -/
def Ark.deref (v : ArkVault T) : T :=
  v.value_ref

/-- State of one equivalence class of handles: the cell (none once
freed) together with the ghost number of live handles referencing it,
used to state the counting invariant. -/
structure ArkState (T : Type) where
  vault : Option (ArkVault T)
  handles : Nat
deriving DecidableEq

/-- Ark::new(value): Box::into_raw(Box::new(ArkVault::new(value))) —
allocates a fresh cell with rc = 1 and returns the sole handle to it.
Total: no failure path. -/
def Ark.new (value : T) : ArkState T :=
  { vault := some (ArkVault.new value), handles := 1 }

/-- Deref through any live handle of the class. -/
def ArkState.derefState (st : ArkState T) : Option T :=
  st.vault.map Ark.deref

/-- Cloning one live handle of the class. -/
def ArkState.cloneStep (st : ArkState T) : ArkState T × List AtomicEvent :=
  match st.vault with
  | some c =>
    let r := Ark.clone c
    ({ vault := some r.1, handles := st.handles + 1 }, r.2)
  | none => (st, [])

/-- Dropping one live handle of the class. -/
def ArkState.dropStep (st : ArkState T) : ArkState T × List AtomicEvent :=
  match st.vault with
  | some c =>
    let r := Ark.drop c
    ({ vault := r.1, handles := st.handles - 1 }, r.2)
  | none => (st, [])

/-- Ark::get_mut through one live handle of the class. -/
def ArkState.getMutStep (st : ArkState T) : Option T × ArkState T × List AtomicEvent :=
  match st.vault with
  | some c =>
    let r := Ark.get_mut c
    (r.1, { vault := some r.2.1, handles := st.handles }, r.2.2)
  | none => (none, st, [])

/-- The counting invariant: while the cell is live its counter equals
the number of live handles, at least one handle exists, and the count
is representable in a usize; once freed, no handle remains. -/
def ArkState.inv (st : ArkState T) : Prop :=
  match st.vault with
  | some c => c.rc = st.handles ∧ 1 ≤ st.handles ∧ st.handles < USIZE
  | none => st.handles = 0

instance (st : ArkState T) : Decidable st.inv :=
  match h : st.vault with
  | some c =>
    decidable_of_iff (c.rc = st.handles ∧ 1 ≤ st.handles ∧ st.handles < USIZE)
      (by unfold ArkState.inv; rw [h])
  | none =>
    decidable_of_iff (st.handles = 0)
      (by unfold ArkState.inv; rw [h])

/-- Operations a thread may perform on a handle of the class.  Each is
a single atomic counter update (or a read), so an arbitrary
interleaving of operations across threads is a serialization. -/
inductive Op where
  | cloneOp
  | dropOp
  | getMutOp
deriving DecidableEq

/-- One serialized step of the class. -/
def ArkState.step (st : ArkState T) (op : Op) : ArkState T × List AtomicEvent :=
  match op with
  | .cloneOp => st.cloneStep
  | .dropOp => st.dropStep
  | .getMutOp => (st.getMutStep.2.1, st.getMutStep.2.2)

/-- Running a serialized sequence of operations, accumulating all
events in order. -/
def ArkState.run (st : ArkState T) : List Op → ArkState T × List AtomicEvent
  | [] => (st, [])
  | op :: ops =>
    let r := st.step op
    let r2 := r.1.run ops
    (r2.1, r.2 ++ r2.2)

/-- An operation is performable only by a thread holding a live handle
(Rust's ownership discipline: clone and get_mut borrow a handle, drop
consumes one), and a clone must not overflow the usize counter. -/
def opValid (st : ArkState T) (op : Op) : Prop :=
  1 ≤ st.handles ∧ (op = Op.cloneOp → st.handles + 1 < USIZE)

instance (st : ArkState T) (op : Op) : Decidable (opValid st op) := by
  unfold opValid; exact inferInstance

/-- Every operation of the sequence is performable in the state it runs
from. -/
def validFrom (st : ArkState T) : List Op → Prop
  | [] => True
  | op :: ops => opValid st op ∧ validFrom (st.step op).1 ops

def validFromDecidable (st : ArkState T) :
    (ops : List Op) → Decidable (validFrom st ops)
  | [] => isTrue trivial
  | op :: ops =>
    @instDecidableAnd _ _ inferInstance (validFromDecidable (st.step op).1 ops)

instance (st : ArkState T) (ops : List Op) : Decidable (validFrom st ops) :=
  validFromDecidable st ops

/-- Number of reclamation events in a trace. -/
def countFree (evs : List AtomicEvent) : Nat :=
  evs.countP (fun e => match e with
    | .freeVault => true
    | _ => false)

/-- Number of atomic decrements that observed the pre-decrement count 1
(the 1 to 0 transitions observed). -/
def countSubObservedOne (evs : List AtomicEvent) : Nat :=
  evs.countP (fun e => match e with
    | .fetchSub _ _ old => decide (old = 1)
    | _ => false)

lemma usize_pos : 0 < USIZE := by
  unfold USIZE; positivity

lemma one_lt_usize : 1 < USIZE := by
  unfold USIZE; norm_num

lemma usize_sub_one_mod (a : Nat) (h1 : 1 ≤ a) (h2 : a < USIZE) :
    (a + (USIZE - 1)) % USIZE = a - 1 := by
  have h0 : 0 < USIZE := usize_pos
  have ha : a + (USIZE - 1) = (a - 1) + 1 * USIZE := by omega
  rw [ha, Nat.add_mul_mod_self_right]
  exact Nat.mod_eq_of_lt (by omega)

lemma get_mut_vault_eq (c : ArkVault T) : (Ark.get_mut c).2.1 = c := by
  unfold Ark.get_mut
  split <;> rfl

lemma getMutStep_state_eq (st : ArkState T) : st.getMutStep.2.1 = st := by
  rcases st with ⟨v, n⟩
  cases v with
  | none => rfl
  | some c => simp [ArkState.getMutStep, get_mut_vault_eq]

lemma new_inv (v : T) : (Ark.new v).inv := by
  refine ⟨rfl, le_refl 1, one_lt_usize⟩

lemma inv_mk_some (rc n : Nat) (val : T) (h1 : rc = n) (h2 : 1 ≤ n)
    (h3 : n < USIZE) :
    (ArkState.mk (some (ArkVault.mk rc val)) n).inv := ⟨h1, h2, h3⟩

lemma inv_elim_some (c : ArkVault T) (n : Nat)
    (h : (ArkState.mk (some c) n).inv) :
    c.rc = n ∧ 1 ≤ n ∧ n < USIZE := h

lemma inv_elim_none (n : Nat)
    (h : (ArkState.mk (none : Option (ArkVault T)) n).inv) : n = 0 := h

/-- C1: Ark::get_mut returns some (a mutable reference) if and only if
the cell's count equals 1 at the time of the call, and none whenever
the count is not 1; the count is read with Relaxed ordering, and
exactly in the success case an Acquire fence is executed before the
reference is returned. -/
theorem claim_C1 (c : ArkVault T) :
    ((Ark.get_mut c).1.isSome ↔ c.rc = 1) ∧
    (Ark.get_mut c).1 = (if c.rc = 1 then some c.value else none) ∧
    (Ark.get_mut c).2.2 =
      (if c.rc = 1 then
        [AtomicEvent.load .Relaxed c.rc, AtomicEvent.fence .Acquire]
      else
        [AtomicEvent.load .Relaxed c.rc]) := by
  unfold Ark.get_mut
  by_cases h : c.rc = 1 <;> simp [h]

/-- C2: dropping a handle performs a single fetch_sub of 1 with Release
ordering on the count; the value is destroyed and the cell freed if and
only if the pre-decrement count was exactly 1, with an Acquire fence
executed before reclamation; when the pre-decrement count exceeds 1 the
cell survives with the count lowered by 1 and the value untouched. -/
theorem claim_C2 (c : ArkVault T) (hlt : c.rc < USIZE) :
    (Ark.drop c).2.head? = some (AtomicEvent.fetchSub 1 .Release c.rc) ∧
    ((Ark.drop c).1 = none ↔ c.rc = 1) ∧
    (c.rc = 1 →
      (Ark.drop c).2 =
        [AtomicEvent.fetchSub 1 .Release c.rc, AtomicEvent.fence .Acquire,
         AtomicEvent.freeVault]) ∧
    (1 < c.rc →
      (Ark.drop c).1 = some { rc := c.rc - 1, value := c.value } ∧
      (Ark.drop c).2 = [AtomicEvent.fetchSub 1 .Release c.rc]) := by
  unfold Ark.drop
  by_cases h : c.rc = 1
  · simp [h]
  · refine ⟨by simp [h], by simp [h], fun h1 => absurd h1 h, fun h1 => ?_⟩
    have hmod : (c.rc + (USIZE - 1)) % USIZE = c.rc - 1 :=
      usize_sub_one_mod c.rc (by omega) hlt
    simp [h, hmod]

theorem claim_C2_witness :
    (Ark.drop (ArkVault.mk 2 (0 : Nat))).2.head? =
      some (AtomicEvent.fetchSub 1 .Release 2) ∧
    ((Ark.drop (ArkVault.mk 2 (0 : Nat))).1 = none ↔ (2 : Nat) = 1) ∧
    ((2 : Nat) = 1 →
      (Ark.drop (ArkVault.mk 2 (0 : Nat))).2 =
        [AtomicEvent.fetchSub 1 .Release 2, AtomicEvent.fence .Acquire,
         AtomicEvent.freeVault]) ∧
    ((1 : Nat) < 2 →
      (Ark.drop (ArkVault.mk 2 (0 : Nat))).1 = some { rc := 1, value := 0 } ∧
      (Ark.drop (ArkVault.mk 2 (0 : Nat))).2 =
        [AtomicEvent.fetchSub 1 .Release 2]) :=
  claim_C2 (ArkVault.mk 2 (0 : Nat)) (by decide)

/-- C3: cloning a handle performs a single fetch_add of 1 with Relaxed
ordering, raising the count by exactly 1; the payload is neither copied
nor modified, and the clone dereferences to the identical value. -/
theorem claim_C3 (c : ArkVault T) (hroom : c.rc + 1 < USIZE) :
    (Ark.clone c).1.rc = c.rc + 1 ∧
    (Ark.clone c).2 = [AtomicEvent.fetchAdd 1 .Relaxed c.rc] ∧
    (Ark.clone c).1.value = c.value ∧
    Ark.deref (Ark.clone c).1 = Ark.deref c := by
  refine ⟨?_, rfl, rfl, rfl⟩
  show (c.rc + 1) % USIZE = c.rc + 1
  exact Nat.mod_eq_of_lt hroom

theorem claim_C3_witness :
    (Ark.clone (ArkVault.mk 1 (7 : Nat))).1.rc = 1 + 1 ∧
    (Ark.clone (ArkVault.mk 1 (7 : Nat))).2 =
      [AtomicEvent.fetchAdd 1 .Relaxed 1] ∧
    (Ark.clone (ArkVault.mk 1 (7 : Nat))).1.value = 7 ∧
    Ark.deref (Ark.clone (ArkVault.mk 1 (7 : Nat))).1 =
      Ark.deref (ArkVault.mk 1 (7 : Nat)) :=
  claim_C3 (ArkVault.mk 1 (7 : Nat)) (by decide)

/-- C5: round-trip — dereferencing the handle returned by Ark::new(v)
yields exactly v. -/
theorem claim_C5 (v : T) : (Ark.new v).derefState = some v := rfl

/-- C6: Ark::new(v) allocates a fresh cell with count exactly 1 holding
v and returns the sole handle to it; the operation is a total function
(no failure path). -/
theorem claim_C6 (v : T) :
    (ArkVault.new v).rc = 1 ∧
    (ArkVault.new v).value = v ∧
    (Ark.new v).vault = some (ArkVault.new v) ∧
    (Ark.new v).handles = 1 :=
  ⟨rfl, rfl, rfl, rfl⟩

/-- C8: Ark::get_mut never modifies the cell — in both the some and
none branches the count and value are unchanged, the event trace
contains no write, and the class state is exactly as before. -/
theorem claim_C8 (c : ArkVault T) (st : ArkState T) :
    (Ark.get_mut c).2.1 = c ∧
    (Ark.get_mut c).2.1.rc = c.rc ∧
    (Ark.get_mut c).2.1.value = c.value ∧
    (∀ e ∈ (Ark.get_mut c).2.2, e.isWrite = false) ∧
    st.getMutStep.2.1 = st := by
  refine ⟨get_mut_vault_eq c, ?_, ?_, ?_, getMutStep_state_eq st⟩
  · rw [get_mut_vault_eq]
  · rw [get_mut_vault_eq]
  · unfold Ark.get_mut
    split <;> simp [AtomicEvent.isWrite]

/-- C9: cloning a handle whose cell has count c ≥ 1 and then dropping
the clone restores the count to c, does not destroy the value, and does
not free the cell. -/
theorem claim_C9 (c : ArkVault T) (hlive : 1 ≤ c.rc)
    (hroom : c.rc + 1 < USIZE) :
    (Ark.clone c).1.rc = c.rc + 1 ∧
    (Ark.drop (Ark.clone c).1).1 = some { rc := c.rc, value := c.value } ∧
    countFree (Ark.drop (Ark.clone c).1).2 = 0 := by
  have hrc : (Ark.clone c).1.rc = c.rc + 1 := by
    show (c.rc + 1) % USIZE = c.rc + 1
    exact Nat.mod_eq_of_lt hroom
  have hval : (Ark.clone c).1.value = c.value := rfl
  refine ⟨hrc, ?_, ?_⟩
  · unfold Ark.drop
    rw [hrc, hval]
    have hne : ¬(c.rc + 1 = 1) := by omega
    simp only [hne, if_false]
    have : (c.rc + 1 + (USIZE - 1)) % USIZE = c.rc := by
      have := usize_sub_one_mod (c.rc + 1) (by omega) hroom
      simpa using this
    rw [this]
  · unfold Ark.drop
    rw [hrc]
    have hne : ¬(c.rc + 1 = 1) := by omega
    simp [hne, countFree]

theorem claim_C9_witness :
    (Ark.clone (ArkVault.mk 2 (5 : Nat))).1.rc = 2 + 1 ∧
    (Ark.drop (Ark.clone (ArkVault.mk 2 (5 : Nat))).1).1 =
      some { rc := 2, value := 5 } ∧
    countFree (Ark.drop (Ark.clone (ArkVault.mk 2 (5 : Nat))).1).2 = 0 :=
  claim_C9 (ArkVault.mk 2 (5 : Nat)) (by decide) (by decide)

lemma countFree_append (a b : List AtomicEvent) :
    countFree (a ++ b) = countFree a + countFree b := by
  simp [countFree, List.countP_append]

lemma countSubOne_append (a b : List AtomicEvent) :
    countSubObservedOne (a ++ b)
      = countSubObservedOne a + countSubObservedOne b := by
  simp [countSubObservedOne, List.countP_append]

lemma run_cons (st : ArkState T) (op : Op) (ops : List Op) :
    st.run (op :: ops) =
      (((st.step op).1.run ops).1,
       (st.step op).2 ++ ((st.step op).1.run ops).2) := rfl

lemma step_clone_some (c : ArkVault T) (n : Nat) :
    (ArkState.mk (some c) n).step Op.cloneOp =
      (ArkState.mk (some (ArkVault.mk ((c.rc + 1) % USIZE) c.value)) (n + 1),
       [AtomicEvent.fetchAdd 1 .Relaxed c.rc]) := rfl

lemma step_drop_one (c : ArkVault T) (n : Nat) (h : c.rc = 1) :
    (ArkState.mk (some c) n).step Op.dropOp =
      (ArkState.mk none (n - 1),
       [AtomicEvent.fetchSub 1 .Release c.rc, AtomicEvent.fence .Acquire,
        AtomicEvent.freeVault]) := by
  simp [ArkState.step, ArkState.dropStep, Ark.drop, h]

lemma step_drop_ne (c : ArkVault T) (n : Nat) (h : ¬c.rc = 1) :
    (ArkState.mk (some c) n).step Op.dropOp =
      (ArkState.mk (some (ArkVault.mk ((c.rc + (USIZE - 1)) % USIZE) c.value))
        (n - 1),
       [AtomicEvent.fetchSub 1 .Release c.rc]) := by
  simp [ArkState.step, ArkState.dropStep, Ark.drop, h]

lemma step_getMut_state (st : ArkState T) :
    (st.step Op.getMutOp).1 = st := getMutStep_state_eq st

lemma getMut_counts (st : ArkState T) :
    countFree (st.step Op.getMutOp).2 = 0 ∧
    countSubObservedOne (st.step Op.getMutOp).2 = 0 := by
  rcases st with ⟨vlt, n⟩
  cases vlt with
  | none =>
    simp [ArkState.step, ArkState.getMutStep, countFree, countSubObservedOne]
  | some c =>
    by_cases h : c.rc = 1 <;>
      simp [ArkState.step, ArkState.getMutStep, Ark.get_mut, h, countFree,
        countSubObservedOne, List.countP_cons, List.countP_nil]

lemma handles_zero_valid_nil (st : ArkState T) (ops : List Op)
    (h0 : st.handles = 0) (hval : validFrom st ops) : ops = [] := by
  cases ops with
  | nil => rfl
  | cons op ops =>
    have h1 : 1 ≤ st.handles := hval.1.1
    exact absurd h1 (by omega)

/-- C4: the counting invariant is preserved by every operation:
Ark::new creates a cell with count 1 and one handle; clone adds one
handle and raises the count by 1; drop removes one handle and lowers
the count by 1 (freeing the cell exactly when the last handle goes);
get_mut changes neither the cell nor the handle count. -/
theorem claim_C4 (v : T) (st : ArkState T) (hinv : st.inv)
    (hlive : 1 ≤ st.handles) (hroom : st.handles + 1 < USIZE) :
    ((Ark.new v).inv ∧ (Ark.new v).handles = 1) ∧
    (st.cloneStep.1.inv ∧ st.cloneStep.1.handles = st.handles + 1) ∧
    (st.dropStep.1.inv ∧ st.dropStep.1.handles = st.handles - 1) ∧
    st.getMutStep.2.1 = st := by
  refine ⟨⟨new_inv v, rfl⟩, ?_, ?_, getMutStep_state_eq st⟩
  · rcases st with ⟨vlt, n⟩
    have hl : 1 ≤ n := hlive
    have hr : n + 1 < USIZE := hroom
    cases vlt with
    | none => exact absurd (inv_elim_none n hinv) (by omega)
    | some c =>
      obtain ⟨hrc, h1, h2⟩ := inv_elim_some c n hinv
      refine ⟨inv_mk_some _ _ _ ?_ (by omega) hr, rfl⟩
      rw [hrc]
      exact Nat.mod_eq_of_lt hr
  · rcases st with ⟨vlt, n⟩
    have hl : 1 ≤ n := hlive
    cases vlt with
    | none => exact absurd (inv_elim_none n hinv) (by omega)
    | some c =>
      obtain ⟨hrc, h1, h2⟩ := inv_elim_some c n hinv
      by_cases hone : c.rc = 1
      · have hn : n = 1 := by omega
        subst hn
        obtain ⟨crc, cval⟩ := c
        have hone' : crc = 1 := hone
        subst hone'
        exact ⟨rfl, rfl⟩
      · have hmod : (c.rc + (USIZE - 1)) % USIZE = c.rc - 1 :=
          usize_sub_one_mod c.rc (by omega) (by omega)
        have hstep := step_drop_ne c n hone
        have hgoal : ((ArkState.mk (some c) n).dropStep.1 =
            ArkState.mk
              (some (ArkVault.mk ((c.rc + (USIZE - 1)) % USIZE) c.value))
              (n - 1)) := congrArg Prod.fst hstep
        rw [hgoal, hmod]
        exact ⟨inv_mk_some _ _ _ (by omega) (by omega) (by omega), rfl⟩

theorem claim_C4_witness :
    ((Ark.new (0 : Nat)).inv ∧ (Ark.new (0 : Nat)).handles = 1) ∧
    ((ArkState.mk (some (ArkVault.mk 2 (0 : Nat))) 2).cloneStep.1.inv ∧
      (ArkState.mk (some (ArkVault.mk 2 (0 : Nat))) 2).cloneStep.1.handles
        = 2 + 1) ∧
    ((ArkState.mk (some (ArkVault.mk 2 (0 : Nat))) 2).dropStep.1.inv ∧
      (ArkState.mk (some (ArkVault.mk 2 (0 : Nat))) 2).dropStep.1.handles
        = 2 - 1) ∧
    (ArkState.mk (some (ArkVault.mk 2 (0 : Nat))) 2).getMutStep.2.1
      = ArkState.mk (some (ArkVault.mk 2 (0 : Nat))) 2 :=
  claim_C4 0 (ArkState.mk (some (ArkVault.mk 2 0)) 2)
    (by decide) (by decide) (by decide)

lemma run_free_spec :
    ∀ (ops : List Op) (st : ArkState T), st.inv → 1 ≤ st.handles →
      validFrom st ops →
      (st.run ops).1.inv ∧
      countFree (st.run ops).2 =
        (if (st.run ops).1.handles = 0 then 1 else 0) ∧
      countSubObservedOne (st.run ops).2 = countFree (st.run ops).2 := by
  intro ops
  induction ops with
  | nil =>
    intro st hinv hlive _
    refine ⟨hinv, ?_, rfl⟩
    have hne : ¬((st.run []).1.handles = 0) := by
      have he : (st.run []).1 = st := rfl
      rw [he]; omega
    rw [if_neg hne]
    rfl
  | cons op ops ih =>
    intro st hinv hlive hval
    obtain ⟨⟨hop1, hop2⟩, hval'⟩ := hval
    rcases st with ⟨vlt, n⟩
    have hln : 1 ≤ n := hop1
    cases vlt with
    | none => exact absurd (inv_elim_none n hinv) (by omega)
    | some c =>
      obtain ⟨hrc, h1, h2⟩ := inv_elim_some c n hinv
      cases op with
      | cloneOp =>
        have hW : n + 1 < USIZE := hop2 rfl
        have hmod : (c.rc + 1) % USIZE = n + 1 := by
          rw [hrc]; exact Nat.mod_eq_of_lt hW
        have hval1 : validFrom
            (ArkState.mk (some (ArkVault.mk ((c.rc + 1) % USIZE) c.value))
              (n + 1)) ops := hval'
        obtain ⟨hif, hcf, hcs⟩ :=
          ih (ArkState.mk (some (ArkVault.mk ((c.rc + 1) % USIZE) c.value))
              (n + 1))
            (inv_mk_some _ _ _ hmod (by omega) hW)
            (by show 1 ≤ n + 1; omega) hval1
        rw [run_cons, step_clone_some]
        refine ⟨hif, ?_, ?_⟩
        · rw [countFree_append, hcf]
          simp [countFree, List.countP_cons, List.countP_nil]
        · rw [countSubOne_append, countFree_append]
          rw [hcs]
          simp [countFree, countSubObservedOne, List.countP_cons,
            List.countP_nil]
      | dropOp =>
        by_cases hone : c.rc = 1
        · have hn : n = 1 := by omega
          subst hn
          have hops : ops = [] :=
            handles_zero_valid_nil (ArkState.mk none 0) ops rfl
              (by rw [step_drop_one c 1 hone] at hval'; exact hval')
          subst hops
          rw [run_cons, step_drop_one c 1 hone]
          refine ⟨rfl, ?_, ?_⟩ <;>
            simp [ArkState.run, countFree, countSubObservedOne,
              List.countP_cons, List.countP_nil, hone]
        · have hge : 2 ≤ c.rc := by omega
          have hmod : (c.rc + (USIZE - 1)) % USIZE = c.rc - 1 :=
            usize_sub_one_mod c.rc (by omega) (by omega)
          have hval1 : validFrom
              (ArkState.mk
                (some (ArkVault.mk ((c.rc + (USIZE - 1)) % USIZE) c.value))
                (n - 1)) ops := by
            rw [step_drop_ne c n hone] at hval'; exact hval'
          obtain ⟨hif, hcf, hcs⟩ :=
            ih (ArkState.mk
                (some (ArkVault.mk ((c.rc + (USIZE - 1)) % USIZE) c.value))
                (n - 1))
              (inv_mk_some _ _ _ (by rw [hmod]; omega) (by omega) (by omega))
              (by show 1 ≤ n - 1; omega) hval1
          rw [run_cons, step_drop_ne c n hone]
          refine ⟨hif, ?_, ?_⟩
          · rw [countFree_append, hcf]
            simp [countFree, List.countP_cons, List.countP_nil]
          · rw [countSubOne_append, countFree_append, hcs]
            simp [countFree, countSubObservedOne, List.countP_cons,
              List.countP_nil, hone]
      | getMutOp =>
        have hval1 : validFrom (ArkState.mk (some c) n) ops := by
          rw [step_getMut_state] at hval'; exact hval'
        obtain ⟨hif, hcf, hcs⟩ :=
          ih (ArkState.mk (some c) n) hinv (by omega) hval1
        obtain ⟨hg1, hg2⟩ := getMut_counts (ArkState.mk (some c) n)
        rw [run_cons]
        rw [step_getMut_state]
        refine ⟨hif, ?_, ?_⟩
        · rw [countFree_append, hcf, hg1]
          simp
        · rw [countSubOne_append, countFree_append, hcs, hg1, hg2]

lemma validFrom_append_left :
    ∀ (p : List Op) (st : ArkState T) (q : List Op),
      validFrom st (p ++ q) → validFrom st p := by
  intro p
  induction p with
  | nil => intro st q _; trivial
  | cons op p ih =>
    intro st q hval
    exact ⟨hval.1, ih _ q hval.2⟩

/-- C7: single reclamation — over any serialized interleaving of valid
clone, drop and get_mut operations starting from the sole handle made
by Ark::new, the cell is freed exactly once if the run ends with no
live handle and never otherwise, exactly one decrement observes the 1
to 0 transition (as many as there are reclamations), and no
reclamation ever happens while a handle is still live (every run
stage with a live handle has seen no reclamation event). -/
theorem claim_C7 (v : T) (ops p q : List Op)
    (hval : validFrom (Ark.new v) ops) (hpq : ops = p ++ q) :
    countFree ((Ark.new v).run ops).2 =
      (if ((Ark.new v).run ops).1.handles = 0 then 1 else 0) ∧
    countSubObservedOne ((Ark.new v).run ops).2 =
      countFree ((Ark.new v).run ops).2 ∧
    (1 ≤ ((Ark.new v).run p).1.handles →
      countFree ((Ark.new v).run p).2 = 0) := by
  have h1 := run_free_spec ops (Ark.new v) (new_inv v) (le_refl 1) hval
  have hvp : validFrom (Ark.new v) p :=
    validFrom_append_left p (Ark.new v) q (hpq ▸ hval)
  have h2 := run_free_spec p (Ark.new v) (new_inv v) (le_refl 1) hvp
  refine ⟨h1.2.1, h1.2.2, fun hl => ?_⟩
  rw [h2.2.1, if_neg (by omega)]

theorem claim_C7_witness :
    countFree ((Ark.new (0 : Nat)).run
        [Op.cloneOp, Op.dropOp, Op.dropOp]).2 =
      (if ((Ark.new (0 : Nat)).run
          [Op.cloneOp, Op.dropOp, Op.dropOp]).1.handles = 0
        then 1 else 0) ∧
    countSubObservedOne ((Ark.new (0 : Nat)).run
        [Op.cloneOp, Op.dropOp, Op.dropOp]).2 =
      countFree ((Ark.new (0 : Nat)).run
        [Op.cloneOp, Op.dropOp, Op.dropOp]).2 ∧
    (1 ≤ ((Ark.new (0 : Nat)).run [Op.cloneOp]).1.handles →
      countFree ((Ark.new (0 : Nat)).run [Op.cloneOp]).2 = 0) :=
  claim_C7 0 [Op.cloneOp, Op.dropOp, Op.dropOp] [Op.cloneOp]
    [Op.dropOp, Op.dropOp] (by decide) rfl

/-- C10: Ark::get_mut on the handle returned by Ark::new(v), before any
clone, always succeeds, and the reference it returns refers to the same
stored value that Deref returns. -/
theorem claim_C10 (v : T) :
    (Ark.get_mut (ArkVault.new v)).1 = some v ∧
    (Ark.get_mut (ArkVault.new v)).1 = some (Ark.deref (ArkVault.new v)) ∧
    (Ark.new v).getMutStep.1 = some v :=
  ⟨rfl, rfl, rfl⟩

end CustomArc
